import Mathlib

/-!
Verification development for the getgridoperators repository.

The repository is a small Python ETL pipeline: it fetches candidate energy
institutions from Wikidata and from an LLM, normalizes names, filters by
per-category keyword rules, deduplicates, and writes CSV seed files.

Strings are modelled as `List Char`.  Unicode-dependent pieces of the code
(`str.lower`, `unicodedata.normalize("NFKD", ·)`, `unicodedata.combining`,
the `\s` and `\w` regex classes) are modelled exactly on the ASCII range
plus a small explicit table of precomposed accented letters; every
character actually exercised by the theorems below lies in that range.
-/

/-- Convert a Lean string literal to the `List Char` representation used
throughout this development. -/
def str (s : String) : List Char := s.data

/-- Python `\s` (whitespace class) restricted to the ASCII whitespace
characters, which is exactly what `str.strip()` and `re.sub(r"\s+", ...)`
match on ASCII input. -/
def isSpaceCh (c : Char) : Bool :=
  c == ' ' || c == '\t' || c == '\n' || c == '\r' || c == '\x0b' || c == '\x0c'

/-- Python `\w` (word-character class) on the ASCII range: letters, digits
and underscore. -/
def isWordCh (c : Char) : Bool :=
  c.isAlpha || c.isDigit || c == '_'

/-- The character class kept by `re.sub(r"[^\w\s&.-]", "", s)` in
`normalize_name`: word characters, whitespace, `&`, `.` and `-`. -/
def keepCh (c : Char) : Bool :=
  isWordCh c || isSpaceCh c || c == '&' || c == '.' || c == '-'

/-- `unicodedata.combining(ch) != 0` for the combining marks produced by
the NFKD table below. -/
def isCombining (c : Char) : Bool :=
  c == '̀' || c == '́' || c == '̃' || c == '̈'

/-- Per-character NFKD decomposition (`unicodedata.normalize("NFKD", ·)`),
modelled on ASCII (identity) plus a table of precomposed lowercase accented
letters; each maps to its base letter followed by a combining mark. -/
def nfkdChar (c : Char) : List Char :=
  if c == 'é' then ['e', '́']
  else if c == 'è' then ['e', '̀']
  else if c == 'á' then ['a', '́']
  else if c == 'ñ' then ['n', '̃']
  else if c == 'ü' then ['u', '̈']
  else if c == 'ö' then ['o', '̈']
  else [c]

/-- Python `str.lower()` on the ASCII range (identity elsewhere). -/
def pyLower (c : Char) : Char :=
  if 65 ≤ c.toNat ∧ c.toNat ≤ 90 then Char.ofNat (c.toNat + 32) else c

/-- Drop a trailing run of whitespace (the right half of `str.strip()`). -/
def dropTrailingWs : List Char → List Char
  | [] => []
  | c :: t =>
    match dropTrailingWs t with
    | [] => if isSpaceCh c then [] else [c]
    | t' => c :: t'

/-- Python `str.strip()`: drop leading and trailing whitespace. -/
def stripCh (l : List Char) : List Char :=
  dropTrailingWs (l.dropWhile isSpaceCh)

/-- Worker for whitespace collapsing: the flag records whether the previous
retained character position was inside a whitespace run. -/
def collapseGo : Bool → List Char → List Char
  | _, [] => []
  | prevSp, c :: t =>
    if isSpaceCh c then
      if prevSp then collapseGo true t else ' ' :: collapseGo true t
    else c :: collapseGo false t

/-- `re.sub(r"\s+", " ", s)`: replace every maximal whitespace run by a
single space. -/
def collapseWs (l : List Char) : List Char := collapseGo false l

/-- `normalize_name` from `src/utils/text.py`:
`s.strip().lower()`, NFKD-decompose, drop combining marks, collapse
whitespace runs, delete characters outside `[\w\s&.-]`, strip again. -/
def normalize_name (s : List Char) : List Char :=
  let s1 := stripCh s
  let s2 := s1.map pyLower
  let s3 := s2.flatMap nfkdChar
  let s4 := s3.filter (fun c => !isCombining c)
  let s5 := collapseWs s4
  let s6 := s5.filter keepCh
  stripCh s6

/-- `pairOk c t` holds when `c` is either not whitespace, or is a plain
space not followed by further whitespace: the local shape of a string in
which every whitespace run has already been collapsed to one space. -/
def pairOk (c : Char) (t : List Char) : Bool :=
  !isSpaceCh c || (c == ' ' && !(t.head?.elim false isSpaceCh))

/-- A string is whitespace-collapsed when every position satisfies
`pairOk`; such strings are exactly the fixed points of `collapseWs`. -/
def okB : List Char → Bool
  | [] => true
  | c :: t => pairOk c t && okB t

/-- Python's substring test `needle in hay` on strings. -/
def substrB (needle : List Char) : List Char → Bool
  | [] => needle.isPrefixOf []
  | c :: t => needle.isPrefixOf (c :: t) || substrB needle t

/-- `Modelled from the spec:` the helper `normalize_for_match` is imported
by `src/sources/wikidata.py` and `scripts/run_ggc_llm_seeds.py` from
`src.utils.text`, but no definition of it appears among the repository's
source files.  The spec's §4.1 Text Normalizer (trim, lower-case, accent
fold, whitespace collapse, keep only word characters / whitespace / `&` /
`.` / `-`, trim) is exactly the algorithm of `normalize_name`, so the
missing function is modelled as that normalizer. -/
def normalize_for_match (s : List Char) : List Char := normalize_name s

/-- A row as produced by the Wikidata fetcher and consumed by
`src/pipeline/filter.py` (Python dictionaries; only the fields that the
filtering code reads are modelled, the rest of the dictionary plays no
role in any claim). -/
structure Row where
  category : Option (List Char)
  operator_label : Option (List Char)
  description_en : Option (List Char)
deriving DecidableEq, Repr

/-- `f"{lbl} {desc}"` where `lbl`/`desc` are the lower-cased label and
description with `None` defaulted to the empty string
(`(r.get("operator_label") or "").lower()` etc. in `filter_relevant`). -/
def rowText (r : Row) : List Char :=
  ((r.operator_label.getD []).map pyLower) ++ str " " ++
    ((r.description_en.getD []).map pyLower)

/-- The TSO keyword list actually written in `filter_relevant`
(`src/pipeline/filter.py` line 29): note the fourth entry is
`"tsO".lower()`, i.e. the string `tso`. -/
def tsoKwCode : List (List Char) :=
  [str "transmission", str "system operator", str "grid operator", str "tso"]

/-- The Regulator keyword list of `filter_relevant`. -/
def regKwCode : List (List Char) :=
  [str "regulator", str "regulatory", str "commission", str "authority"]

/-- The Ministry keyword list of `filter_relevant`. -/
def minKwCode : List (List Char) :=
  [str "ministry", str "department"]

/-- The TSO keyword set as the spec states it in §4.3:
{transmission, system operator, grid operator, operator}.  This definition
follows the spec's words and is only used to compare the spec's rule set
against the code's (`tsoKwCode`). -/
def specTSOKeywords : List (List Char) :=
  [str "transmission", str "system operator", str "grid operator", str "operator"]

/-- The per-row keep decision of the loop body of `filter_relevant`
(`src/pipeline/filter.py` lines 20-38): drop rows whose lower-cased label
is empty, then test the category's keyword list against
`f"{lbl} {desc}"`; any category other than TSO / Regulator / Ministry
(including an absent one) takes the `else` branch and is kept. -/
def keepRow (r : Row) : Bool :=
  if (r.operator_label.getD []).map pyLower = [] then false
  else if r.category = some (str "TSO") then
    tsoKwCode.any (fun k => substrB k (rowText r))
  else if r.category = some (str "Regulator") then
    regKwCode.any (fun k => substrB k (rowText r))
  else if r.category = some (str "Ministry") then
    minKwCode.any (fun k => substrB k (rowText r))
  else true

/-- `filter_relevant` from `src/pipeline/filter.py`: keep exactly the rows
accepted by the loop body, in order. -/
def filter_relevant (rows : List Row) : List Row :=
  rows.filter keepRow

/-- The category dispatch at the top of `fetch_candidates_for_country`
(`src/sources/wikidata.py` lines 67-81): strict type QIDs, fallback type
QIDs and the fetcher's own keyword list per category; any other category
value raises `ValueError(f"Unknown category: {category}")`. -/
def fetchCategoryConfig (category : List Char) :
    Except (List Char) (List (List Char) × List (List Char) × List (List Char)) :=
  if category = str "TSO" then
    .ok (⟨[str "Q112046"], [str "Q1326624"],
      [str "transmission", str "grid", str "system operator", str "operator",
       str "electricidad", str "energia"]⟩)
  else if category = str "Regulator" then
    .ok (⟨[str "Q1639780"], [],
      [str "energy", str "electricity", str "power", str "grid",
       str "renewable", str "renewables", str "electricidad", str "energia"]⟩)
  else if category = str "Ministry" then
    .ok (⟨[str "Q19973795"], [str "Q1805337"],
      [str "energy", str "electricity", str "power"]⟩)
  else .error (str "Unknown category: " ++ category)

/-- The post-query keyword filter of `fetch_candidates_for_country`
(`src/sources/wikidata.py` lines 150-167): keep the rows whose
`normalize_for_match`-normalized lower-cased label-plus-description
contains at least one normalized keyword.  There is no label check here. -/
def fetchKeywordFilter (kw : List (List Char)) (rows : List Row) : List Row :=
  rows.filter (fun r =>
    (kw.map normalize_for_match).any
      (fun k => substrB k (normalize_for_match (rowText r))))

/-- `fetch_candidates_for_country` from `src/sources/wikidata.py`, with the
network round trip abstracted: `rows` stands for the record list built by
the inner `run` function from the SPARQL bindings, and the function
performs the category dispatch (which can raise) followed by the keyword
post-filter applied to those rows. -/
def fetch_candidates_for_country (category : List Char) (rows : List Row) :
    Except (List Char) (List Row) :=
  (fetchCategoryConfig category).map (fun cfg => fetchKeywordFilter cfg.2.2 rows)

/-- The retry loop of `_sparql` (`src/sources/wikidata.py` lines 34-51),
run against an oracle `outcomes` giving the result of each 1-indexed
attempt.  The call either returns the first successful response or, after
the final attempt fails, re-raises the last error
(`.error none` models `raise None` when zero attempts were configured).
The second component records the argument of each `time.sleep` call, in
order: the code sleeps `backoff_s * attempt` after every failed attempt. -/
def sparqlLoop (outcomes : Nat → Except (List Char) (List Char)) (backoff : Nat) :
    Nat → Nat → Option (List Char) → Except (Option (List Char)) (List Char) × List Nat
  | _, 0, lastErr => (.error lastErr, [])
  | attempt, rem + 1, _ =>
    match outcomes attempt with
    | .ok r => (.ok r, [])
    | .error e =>
      let rest := sparqlLoop outcomes backoff (attempt + 1) rem (some e)
      (rest.1, backoff * attempt :: rest.2)

/-- `_sparql` with `retries` attempts: `for attempt in range(1, retries+1)`. -/
def sparqlRetry (outcomes : Nat → Except (List Char) (List Char))
    (backoff retries : Nat) : Except (Option (List Char)) (List Char) × List Nat :=
  sparqlLoop outcomes backoff 1 retries none

/-- A generic row for `dedupe_rows`: a Python dictionary mapping field
names to string-or-`None` values (an absent field is absence from the
association list, a `None` value is an inner `none`). -/
def PyRow : Type := List (List Char × Option (List Char))

instance : DecidableEq PyRow := by
  unfold PyRow
  infer_instance

/-- `r.get(f)` on such a dictionary: `none` when the field is absent,
`some v` (with `v` possibly `none`, i.e. Python `None`) when present. -/
def rowGet (r : PyRow) (f : List Char) : Option (Option (List Char)) :=
  (r.find? (fun p => p.1 == f)).map (fun p => p.2)

/-- `(r.get(f) or "").strip()`: an absent field, a `None` value and an
empty string all become the empty string before stripping. -/
def keyVal (v : Option (Option (List Char))) : List Char :=
  stripCh ((v.getD none).getD [])

/-- The deduplication key of `dedupe_rows`: the tuple
`tuple((r.get(f) or "").strip() for f in key_fields)`. -/
def rowKey (key_fields : List (List Char)) (r : PyRow) : List (List Char) :=
  key_fields.map (fun f => keyVal (rowGet r f))

/-- The loop of `dedupe_rows` with the `seen` set made explicit (Python's
`set` membership is modelled by list membership). -/
def dedupeGo (key_fields : List (List Char)) (seen : List (List (List Char))) :
    List PyRow → List PyRow
  | [] => []
  | r :: rest =>
    let key := rowKey key_fields r
    if key ∈ seen then dedupeGo key_fields seen rest
    else r :: dedupeGo key_fields (key :: seen) rest

/-- `dedupe_rows` from `src/utils/text.py`. -/
def dedupe_rows (rows : List PyRow) (key_fields : List (List Char)) : List PyRow :=
  dedupeGo key_fields [] rows

/-! ## Model of `scripts/run_ggc_llm_seeds.py` -/

deriving instance DecidableEq for Except

/-- A decoded JSON value, as produced by `json.loads`. -/
inductive JVal where
  | jnull : JVal
  | jbool : Bool → JVal
  | jnum : Int → JVal
  | jstr : List Char → JVal
  | jarr : List JVal → JVal
  | jobj : List (List Char × JVal) → JVal

/-- The Python exceptions the parsing helpers can raise past their own
`try` blocks. -/
inductive PyError where
  | attributeError : PyError
deriving DecidableEq, Repr

/-- Python truthiness of a JSON value. -/
def jTruthy : JVal → Bool
  | .jnull => false
  | .jbool b => b
  | .jnum n => n != 0
  | .jstr s => !s.isEmpty
  | .jarr xs => !xs.isEmpty
  | .jobj fs => !fs.isEmpty

/-- `d.get(k)` on a decoded JSON object. -/
def jlookup (fs : List (List Char × JVal)) (k : List Char) : Option JVal :=
  (fs.find? (fun p => p.1 == k)).map (fun p => p.2)

/-- `(it.get(k) or "").strip()` as used on each field in
`_safe_parse_items`: an absent key or a falsy value yields the empty
string; a truthy string is stripped; a truthy non-string has no `.strip`
method and raises `AttributeError`. -/
def getStrip (fs : List (List Char × JVal)) (k : List Char) :
    Except PyError (List Char) :=
  match jlookup fs k with
  | none => .ok []
  | some v =>
    if jTruthy v then
      match v with
      | .jstr s => .ok (stripCh s)
      | _ => .error .attributeError
    else .ok []

/-- One output item of `_safe_parse_items` (a six-field string dict). -/
structure Item where
  name : List Char
  also_known_as : List Char
  official_website : List Char
  confidence : List Char
  evidence : List Char
  comment : List Char
deriving DecidableEq, Repr

/-- The per-item body of the loop in `_safe_parse_items` (lines 241-266):
a non-dict item is skipped; otherwise all six fields are extracted (each
extraction can raise), an empty name skips the item, and a confidence
outside {HIGH, MED, LOW} is replaced by LOW. -/
def parseItem (v : JVal) : Except PyError (Option Item) :=
  match v with
  | .jobj fs => do
    let name ← getStrip fs (str "name")
    let aka ← getStrip fs (str "also_known_as")
    let web ← getStrip fs (str "official_website")
    let conf ← getStrip fs (str "confidence")
    let evid ← getStrip fs (str "evidence")
    let comm ← getStrip fs (str "comment")
    if name = [] then
      return none
    else
      let conf := if conf = str "HIGH" ∨ conf = str "MED" ∨ conf = str "LOW"
        then conf else str "LOW"
      return some ⟨name, aka, web, conf, evid, comm⟩
  | _ => .ok none

/-- The loop of `_safe_parse_items` over the `items` array. -/
def parseItemsLoop : List JVal → Except PyError (List Item)
  | [] => .ok []
  | x :: xs => do
    let r ← parseItem x
    let rest ← parseItemsLoop xs
    match r with
    | none => return rest
    | some it => return it :: rest

/-- `_safe_parse_items` from `scripts/run_ggc_llm_seeds.py` (lines
230-267).  The argument is the result of `json.loads` on the response
text: `none` models a `json.JSONDecodeError` (caught, returning `[]`).
On a decoded value, `obj.get("items", [])` requires the top level to be an
object — any other decoded value raises `AttributeError` — and a non-list
`items` value returns `[]`. -/
def safe_parse_items (parsed : Option JVal) : Except PyError (List Item) :=
  match parsed with
  | none => .ok []
  | some (.jobj fs) =>
    match (jlookup fs (str "items")).getD (.jarr []) with
    | .jarr xs => parseItemsLoop xs
    | _ => .ok []
  | some _ => .error .attributeError

/-- `verify_item` from `scripts/run_ggc_llm_seeds.py` (lines 298-324),
with the LLM round trip abstracted: the argument is the decode of the
verification response's output text, and the result is
`items[0] if items else None`. -/
def verify_item (resp : Option JVal) : Except PyError (Option Item) :=
  (safe_parse_items resp).map (fun its => its.head?)

/-- The verification loop of `main` (`scripts/run_ggc_llm_seeds.py` lines
416-430): for each item, call the verifier and append
`v if v else it` — the replacement when verification returned an item
(parsed items are non-empty six-field dicts, hence truthy), the original
item otherwise. -/
def verifyPassLoop (vf : Item → Except PyError (Option Item)) :
    List Item → Except PyError (List Item)
  | [] => .ok []
  | it :: rest => do
    let v ← vf it
    let tail ← verifyPassLoop vf rest
    return (v.getD it) :: tail

/-- The verification pass of `main` over a candidate list, where
`respFor it` is the decoded verification response obtained for candidate
`it`. -/
def mainVerifyPass (respFor : Item → Option JVal) (items : List Item) :
    Except PyError (List Item) :=
  verifyPassLoop (fun it => verify_item (respFor it)) items

/-! ## Claim C2: the TSO keyword set -/

/-- C2, counterexample: the claim says `is_relevant(TSO, text)` holds iff
`text` contains one of {transmission, system operator, grid operator,
operator}.  The row labelled `tso` contains none of those four keywords,
yet `filter_relevant` keeps it: the code's fourth keyword is
`"tsO".lower()`, i.e. `tso`, not `operator`. -/
theorem c2_counterexample :
    filter_relevant [⟨some (str "TSO"), some (str "tso"), none⟩] =
      [⟨some (str "TSO"), some (str "tso"), none⟩] ∧
    specTSOKeywords.any
      (fun k => substrB k (rowText ⟨some (str "TSO"), some (str "tso"), none⟩)) =
      false := by
  decide

/-- C2, amended: for a TSO row with a non-empty (lower-cased) label, the
relevance decision of `filter_relevant` is exactly "any keyword present"
over the code's keyword set {transmission, system operator, grid
operator, tso}. -/
theorem c2_tso_keyword_rule (r : Row)
    (hcat : r.category = some (str "TSO"))
    (hlbl : (r.operator_label.getD []).map pyLower ≠ []) :
    keepRow r = tsoKwCode.any (fun k => substrB k (rowText r)) ∧
    filter_relevant [r] =
      (if tsoKwCode.any (fun k => substrB k (rowText r)) = true then [r] else []) := by
  have h1 : keepRow r = tsoKwCode.any (fun k => substrB k (rowText r)) := by
    unfold keepRow
    rw [if_neg hlbl, if_pos hcat]
  refine ⟨h1, ?_⟩
  unfold filter_relevant
  cases hk : tsoKwCode.any (fun k => substrB k (rowText r)) <;>
    simp [List.filter, h1, hk]

/-- Witness for C2's amended theorem at a concrete TSO row. -/
theorem c2_tso_keyword_rule_witness :
    keepRow ⟨some (str "TSO"), some (str "Grid Operator Co"), none⟩ =
      tsoKwCode.any
        (fun k => substrB k (rowText ⟨some (str "TSO"), some (str "Grid Operator Co"), none⟩)) :=
  (c2_tso_keyword_rule ⟨some (str "TSO"), some (str "Grid Operator Co"), none⟩
    rfl (by decide)).1

/-! ## Claim C4: unknown categories -/

/-- C4, counterexample: the claim says a category value outside the five
fixed categories makes the relevance test fail with an error, never a
silent pass.  `filter_relevant` on a row with category `Bogus` and a
non-empty label silently keeps it (the `else` branch sets `keep = True`). -/
theorem c4_counterexample :
    filter_relevant [⟨some (str "Bogus"), some (str "x"), none⟩] =
      [⟨some (str "Bogus"), some (str "x"), none⟩] := by
  decide

/-- C4, amended: every category other than TSO / Regulator / Ministry —
unknown values and the two fixed categories RenewablesAgency and
NuclearAgency alike — is silently passed by `filter_relevant` (any row of
that category with a non-empty label is kept), while the knowledge-graph
fetcher's category dispatch raises `ValueError("Unknown category: ...")`
for exactly the same set of categories. -/
theorem c4_unknown_category_behavior (cat : List Char)
    (h1 : cat ≠ str "TSO") (h2 : cat ≠ str "Regulator") (h3 : cat ≠ str "Ministry") :
    (∀ r : Row, r.category = some cat →
      (r.operator_label.getD []).map pyLower ≠ [] → keepRow r = true) ∧
    fetchCategoryConfig cat = .error (str "Unknown category: " ++ cat) := by
  constructor
  · intro r hcat hlbl
    unfold keepRow
    rw [if_neg hlbl, hcat]
    rw [if_neg (by simpa using h1), if_neg (by simpa using h2), if_neg (by simpa using h3)]
  · unfold fetchCategoryConfig
    rw [if_neg h1, if_neg h2, if_neg h3]

/-- Witness for C4's amended theorem: even the fixed category
RenewablesAgency is kept by the filter and rejected by the fetcher. -/
theorem c4_unknown_category_behavior_witness :
    keepRow ⟨some (str "RenewablesAgency"), some (str "x"), none⟩ = true ∧
    fetchCategoryConfig (str "RenewablesAgency") =
      .error (str "Unknown category: " ++ str "RenewablesAgency") := by
  have h := c4_unknown_category_behavior (str "RenewablesAgency")
    (by decide) (by decide) (by decide)
  exact ⟨h.1 ⟨some (str "RenewablesAgency"), some (str "x"), none⟩ rfl (by decide), h.2⟩

/-! ## Claim C5: response parsing on malformed responses -/

/-- C5: the claim says response parsing never raises and returns an empty
item list on unparseable JSON or schema mismatch.  A JSON decode failure
indeed yields `[]`, but a decoded top level that is not an object — the
response text `5` is valid JSON — hits `obj.get("items", [])` on an `int`
and raises `AttributeError`, so a schema mismatch at the top level is
fatal. -/
theorem c5_parse_nonobject_raises :
    safe_parse_items (some (.jnum 5)) = .error .attributeError ∧
    safe_parse_items none = .ok [] := by
  decide

/-! ## Claim C3: the fetcher's post-filter -/

/-- C3, counterexample: the claim says every record returned by the
fetcher has a non-empty label and rule-set-keyword-matching text.  A
record with no label at all, whose description contains the fetcher's own
extra keyword `electricidad` but no keyword of the rule set (neither the
code's TSO list nor the spec's), is returned by the fetcher unchanged:
the fetcher has no label check and uses a broader keyword list. -/
theorem c3_counterexample :
    fetch_candidates_for_country (str "TSO")
        [⟨some (str "TSO"), none, some (str "electricidad supplier")⟩] =
      .ok [⟨some (str "TSO"), none, some (str "electricidad supplier")⟩] ∧
    (⟨some (str "TSO"), none, some (str "electricidad supplier")⟩ : Row).operator_label
      = none ∧
    tsoKwCode.any (fun k => substrB k
      (normalize_for_match (rowText ⟨some (str "TSO"), none, some (str "electricidad supplier")⟩)))
      = false ∧
    specTSOKeywords.any (fun k => substrB k
      (normalize_for_match (rowText ⟨some (str "TSO"), none, some (str "electricidad supplier")⟩)))
      = false := by
  decide

/-- C3, amended: for a known category, every record the fetcher returns
passes the fetcher's own keyword test (its normalized label-plus-
description contains at least one of the fetcher's normalized keywords,
a broader list than the rule set's); the fetcher performs no label
check — the label discard lives in the separate reference post-filter
`filter_relevant`, whose survivors always have a non-empty label. -/
theorem c3_fetch_post_filter (category : List Char)
    (cfg : List (List Char) × List (List Char) × List (List Char))
    (rows : List Row) (r : Row)
    (hcfg : fetchCategoryConfig category = .ok cfg)
    (hr : r ∈ fetchKeywordFilter cfg.2.2 rows) :
    fetch_candidates_for_country category rows = .ok (fetchKeywordFilter cfg.2.2 rows) ∧
    (cfg.2.2.map normalize_for_match).any
      (fun k => substrB k (normalize_for_match (rowText r))) = true ∧
    (∀ (rows2 : List Row) (r2 : Row), r2 ∈ filter_relevant rows2 →
      (r2.operator_label.getD []).map pyLower ≠ []) := by
  refine ⟨?_, ?_, ?_⟩
  · unfold fetch_candidates_for_country
    rw [hcfg]
    rfl
  · exact (List.mem_filter.mp hr).2
  · intro rows2 r2 hr2 hlbl
    have hk : keepRow r2 = true := (List.mem_filter.mp hr2).2
    unfold keepRow at hk
    rw [if_pos hlbl] at hk
    exact Bool.false_ne_true hk

/-- Witness for C3's amended theorem at a concrete labelled TSO row. -/
theorem c3_fetch_post_filter_witness :
    ((⟨[str "Q112046"], [str "Q1326624"],
        [str "transmission", str "grid", str "system operator", str "operator",
         str "electricidad", str "energia"]⟩ :
      List (List Char) × List (List Char) × List (List Char)).2.2.map normalize_for_match).any
      (fun k => substrB k
        (normalize_for_match (rowText ⟨some (str "TSO"), some (str "Grid Operator Co"), none⟩)))
      = true ∧
    (((⟨some (str "TSO"), some (str "Grid Operator Co"), none⟩ : Row).operator_label.getD
      []).map pyLower) ≠ [] := by
  have h := c3_fetch_post_filter (str "TSO")
    (⟨[str "Q112046"], [str "Q1326624"],
      [str "transmission", str "grid", str "system operator", str "operator",
       str "electricidad", str "energia"]⟩)
    [⟨some (str "TSO"), some (str "Grid Operator Co"), none⟩]
    ⟨some (str "TSO"), some (str "Grid Operator Co"), none⟩
    rfl (by decide)
  exact ⟨h.2.1, h.2.2 [⟨some (str "TSO"), some (str "Grid Operator Co"), none⟩]
    ⟨some (str "TSO"), some (str "Grid Operator Co"), none⟩ (by decide)⟩

/-! ## Claim C10: deduplication keys -/

/-- Once the key of `r2` is in `seen`, `r2` contributes nothing: the
dedupe loop gives the same output with `r2` removed from the input. -/
theorem dedupeGo_drop_seen (kf : List (List Char)) (r2 : PyRow) (l3 : List PyRow) :
    ∀ (l : List PyRow) (seen : List (List (List Char))), rowKey kf r2 ∈ seen →
      dedupeGo kf seen (l ++ (r2 :: l3)) = dedupeGo kf seen (l ++ l3)
  | [], seen, hmem => by
    simp only [List.nil_append, dedupeGo, if_pos hmem]
  | x :: t, seen, hmem => by
    simp only [List.cons_append, dedupeGo]
    by_cases hx : rowKey kf x ∈ seen
    · rw [if_pos hx, if_pos hx]
      exact dedupeGo_drop_seen kf r2 l3 t seen hmem
    · rw [if_neg hx, if_neg hx]
      exact congrArg (x :: ·)
        (dedupeGo_drop_seen kf r2 l3 t (rowKey kf x :: seen)
          (List.mem_cons_of_mem _ hmem))

/-- A later row whose key equals that of an earlier row is dropped by the
dedupe loop, whatever `seen` set the loop starts from. -/
theorem dedupeGo_second_dup (kf : List (List Char)) (r1 r2 : PyRow)
    (l2 l3 : List PyRow) (hk : rowKey kf r2 = rowKey kf r1) :
    ∀ (l1 : List PyRow) (seen : List (List (List Char))),
      dedupeGo kf seen (l1 ++ (r1 :: (l2 ++ (r2 :: l3)))) =
        dedupeGo kf seen (l1 ++ (r1 :: (l2 ++ l3)))
  | [], seen => by
    simp only [List.nil_append, dedupeGo]
    by_cases hx : rowKey kf r1 ∈ seen
    · rw [if_pos hx, if_pos hx]
      exact dedupeGo_drop_seen kf r2 l3 l2 seen (hk ▸ hx)
    · rw [if_neg hx, if_neg hx]
      exact congrArg (r1 :: ·)
        (dedupeGo_drop_seen kf r2 l3 l2 (rowKey kf r1 :: seen)
          (hk ▸ List.mem_cons_self _ _))
  | x :: t, seen => by
    simp only [List.cons_append, dedupeGo]
    by_cases hx : rowKey kf x ∈ seen
    · rw [if_pos hx, if_pos hx]
      exact dedupeGo_second_dup kf r1 r2 l2 l3 hk t seen
    · rw [if_neg hx, if_neg hx]
      exact congrArg (x :: ·)
        (dedupeGo_second_dup kf r1 r2 l2 l3 hk t (rowKey kf x :: seen))

/-- C10: a record's dedupe key is the tuple of its key fields' trimmed
values with an absent field or a `None` value counting as the empty
string; hence an absent field, a `None`, an empty string and a
whitespace-only string all produce the same (empty) key component, two
records agreeing componentwise get the same key, and a later record whose
key equals an earlier one's is dropped from the output. -/
theorem c10_dedupe_blank_key (kf : List (List Char)) (r1 r2 : PyRow)
    (l1 l2 l3 : List PyRow)
    (h : ∀ f ∈ kf, keyVal (rowGet r1 f) = keyVal (rowGet r2 f)) :
    (∀ s : List Char, stripCh s = [] →
      keyVal none = [] ∧ keyVal (some none) = [] ∧ keyVal (some (some s)) = []) ∧
    rowKey kf r1 = rowKey kf r2 ∧
    dedupe_rows (l1 ++ (r1 :: (l2 ++ (r2 :: l3)))) kf =
      dedupe_rows (l1 ++ (r1 :: (l2 ++ l3))) kf := by
  refine ⟨?_, ?_, ?_⟩
  · intro s hs
    exact ⟨rfl, rfl, hs⟩
  · exact List.map_congr_left h
  · exact dedupeGo_second_dup kf r1 r2 l2 l3
      (List.map_congr_left h).symm l1 []

/-- Witness for C10: a whitespace-only `name` field and an absent `name`
field give the same key, and the later of the two rows is dropped. -/
theorem c10_dedupe_blank_key_witness :
    rowKey [str "name"] [(str "name", some (str "  "))] = rowKey [str "name"] [] ∧
    dedupe_rows [[(str "name", some (str "  "))], []] [str "name"] =
      dedupe_rows [[(str "name", some (str "  "))]] [str "name"] := by
  have h := c10_dedupe_blank_key [str "name"]
    [(str "name", some (str "  "))] [] [] [] [] (by decide)
  exact ⟨h.2.1, h.2.2⟩

/-! ## Claim C6: the SPARQL retry loop -/

/-- One failed step of the retry loop: record the sleep
`backoff * attempt` and continue with the next attempt. -/
theorem sparqlLoop_step_err (outcomes : Nat → Except (List Char) (List Char))
    (b a rem : Nat) (le : Option (List Char)) (e : List Char)
    (he : outcomes a = .error e) :
    sparqlLoop outcomes b a (rem + 1) le =
      ((sparqlLoop outcomes b (a + 1) rem (some e)).1,
        b * a :: (sparqlLoop outcomes b (a + 1) rem (some e)).2) := by
  simp only [sparqlLoop, he]

/-- Retry loop, success case: starting at attempt `a` with `rem` attempts
left, if attempt `k` succeeds and all attempts from `a` up to `k` fail,
the loop returns the successful response and has slept `backoff * j` after
each failed attempt `j`. -/
theorem sparqlLoop_ok (outcomes : Nat → Except (List Char) (List Char))
    (b k : Nat) (r : List Char) (errAt : Nat → List Char) :
    ∀ (rem a : Nat) (le : Option (List Char)), a ≤ k → k < a + rem →
      outcomes k = .ok r →
      (∀ j, a ≤ j → j < k → outcomes j = .error (errAt j)) →
      sparqlLoop outcomes b a rem le =
        (.ok r, (List.range (k - a)).map (fun i => b * (a + i)))
  | 0, a, _, hak, hkr, _, _ => absurd hkr (by omega)
  | rem + 1, a, le, hak, hkr, hok, herr => by
    rcases Nat.eq_or_lt_of_le hak with rfl | hlt
    · simp only [sparqlLoop, hok, Nat.sub_self, List.range_zero, List.map_nil]
    · have ha : outcomes a = .error (errAt a) := herr a le_rfl hlt
      have hrec := sparqlLoop_ok outcomes b k r errAt rem (a + 1) (some (errAt a))
        hlt (by omega) hok (fun j h1 h2 => herr j (by omega) h2)
      rw [sparqlLoop_step_err outcomes b a rem le (errAt a) ha, hrec]
      have hn : k - a = (k - (a + 1)) + 1 := by omega
      rw [hn, List.range_succ_eq_map, List.map_cons, List.map_map]
      refine congrArg (Prod.mk (Except.ok r)) ?_
      refine congrArg₂ (· :: ·) (by simp) ?_
      refine List.map_congr_left (fun i _ => ?_)
      simp only [Function.comp_apply]
      exact congrArg (b * ·) (by omega)

/-- Retry loop, exhaustion case: if every attempt from `a` through
`a + rem - 1` fails, the loop ends with the error of the final attempt,
having slept after every failed attempt including the last. -/
theorem sparqlLoop_exhaust (outcomes : Nat → Except (List Char) (List Char))
    (b : Nat) (errAt : Nat → List Char) :
    ∀ (rem a : Nat) (le : Option (List Char)), 1 ≤ rem →
      (∀ j, a ≤ j → j < a + rem → outcomes j = .error (errAt j)) →
      sparqlLoop outcomes b a rem le =
        (.error (some (errAt (a + rem - 1))), (List.range rem).map (fun i => b * (a + i)))
  | 0, _, _, h1, _ => absurd h1 (by omega)
  | 1, a, le, _, herr => by
    have ha : outcomes a = .error (errAt a) := herr a le_rfl (by omega)
    rw [sparqlLoop_step_err outcomes b a 0 le (errAt a) ha]
    simp [sparqlLoop, List.range_succ]
  | rem + 2, a, le, _, herr => by
    have ha : outcomes a = .error (errAt a) := herr a le_rfl (by omega)
    have hrec := sparqlLoop_exhaust outcomes b errAt (rem + 1) (a + 1) (some (errAt a))
      (by omega) (fun j h1 h2 => herr j (by omega) (by omega))
    rw [sparqlLoop_step_err outcomes b a (rem + 1) le (errAt a) ha, hrec]
    have h1 : a + 1 + (rem + 1) - 1 = a + (rem + 2) - 1 := by omega
    rw [h1]
    refine congrArg (Prod.mk (Except.error (some (errAt (a + (rem + 2) - 1))))) ?_
    conv_rhs => rw [List.range_succ_eq_map, List.map_cons, List.map_map]
    refine congrArg₂ (· :: ·) rfl ?_
    refine List.map_congr_left (fun i _ => ?_)
    simp only [Function.comp_apply]
    exact congrArg (b * ·) (by omega)

/-- C6: `_sparql` returns the first successful response without further
attempts, retries up to the configured bound with linearly increasing
backoff (sleeping `backoff * attempt` after the failed attempt numbered
`attempt`), and after exhausting all attempts propagates the error of the
last attempt. -/
theorem c6_sparql_retry (outcomes : Nat → Except (List Char) (List Char))
    (b retries k : Nat) (r : List Char) (errAt : Nat → List Char) :
    (1 ≤ k → k ≤ retries → outcomes k = .ok r →
      (∀ j, 1 ≤ j → j < k → outcomes j = .error (errAt j)) →
      sparqlRetry outcomes b retries =
        (.ok r, (List.range (k - 1)).map (fun i => b * (i + 1)))) ∧
    (1 ≤ retries → (∀ j, 1 ≤ j → j ≤ retries → outcomes j = .error (errAt j)) →
      sparqlRetry outcomes b retries =
        (.error (some (errAt retries)), (List.range retries).map (fun i => b * (i + 1)))) := by
  constructor
  · intro h1 h2 hok herr
    unfold sparqlRetry
    rw [sparqlLoop_ok outcomes b k r errAt retries 1 none h1 (by omega) hok herr]
    refine congrArg (fun w => (Except.ok r, w)) ?_
    exact List.map_congr_left (fun i _ => congrArg (b * ·) (by omega))
  · intro h1 herr
    unfold sparqlRetry
    rw [sparqlLoop_exhaust outcomes b errAt retries 1 none h1
      (fun j hj1 hj2 => herr j hj1 (by omega))]
    have h2 : 1 + retries - 1 = retries := by omega
    rw [h2]
    refine congrArg (fun w => (Except.error (some (errAt retries)), w)) ?_
    exact List.map_congr_left (fun i _ => congrArg (b * ·) (by omega))

/-- Witness for C6 at concrete outcome oracles: two failures then a
success returns the response after sleeping 2 and 4; three failures
propagate the third error after sleeping 2, 4 and 6. -/
theorem c6_sparql_retry_witness :
    sparqlRetry (fun j => if j < 3 then .error (str "boom") else .ok (str "resp")) 2 3 =
      (.ok (str "resp"), [2, 4]) ∧
    sparqlRetry (fun j => .error (str "e" ++ [Char.ofNat (48 + j)])) 2 3 =
      (.error (some (str "e3")), [2, 4, 6]) := by
  constructor
  · have h := (c6_sparql_retry
      (fun j => if j < 3 then .error (str "boom") else .ok (str "resp"))
      2 3 3 (str "resp") (fun _ => str "boom")).1
      (by omega) (by omega) (by decide)
      (by
        intro j h1 h2
        interval_cases j <;> decide)
    simpa using h
  · have h := (c6_sparql_retry
      (fun j => .error (str "e" ++ [Char.ofNat (48 + j)]))
      2 3 3 (str "x") (fun j => str "e" ++ [Char.ofNat (48 + j)])).2
      (by omega)
      (by
        intro j h1 h2
        interval_cases j <;> decide)
    simpa using h

/-! ## Claim C7: the verification pass -/

/-- C7: when every per-candidate verification call completes (with either
an empty parse, modelled by `vres it = none`, or a replacement item), the
verification pass maps each candidate in place — a failed or empty
verification retains the original candidate at its position, a returned
item replaces it at the same position — and the output has the same
length as the input. -/
theorem c7_verify_in_place (respFor : Item → Option JVal) (items : List Item)
    (vres : Item → Option Item)
    (h : ∀ it ∈ items, verify_item (respFor it) = .ok (vres it)) :
    mainVerifyPass respFor items = .ok (items.map (fun it => (vres it).getD it)) ∧
    (items.map (fun it => (vres it).getD it)).length = items.length := by
  refine ⟨?_, List.length_map _ _⟩
  unfold mainVerifyPass
  induction items with
  | nil => rfl
  | cons it rest ih =>
    have hh : verify_item (respFor it) = .ok (vres it) := h it (List.mem_cons_self _ _)
    simp only [verifyPassLoop, hh, List.map_cons]
    rw [ih (fun x hx => h x (List.mem_cons_of_mem _ hx))]
    rfl

/-- Witness for C7: candidate `A`, whose verification response fails to
decode, is retained unchanged; candidate `B`, whose verification returns
item `B2`, is replaced in place; the output keeps length 2. -/
theorem c7_verify_in_place_witness :
    mainVerifyPass
      (fun it => if it.name = str "A" then none
        else some (.jobj [(str "items", .jarr [.jobj [(str "name", .jstr (str "B2"))]])]))
      [⟨str "A", [], [], str "LOW", [], []⟩, ⟨str "B", [], [], str "HIGH", [], []⟩] =
      .ok [⟨str "A", [], [], str "LOW", [], []⟩, ⟨str "B2", [], [], str "LOW", [], []⟩] := by
  have h := (c7_verify_in_place
    (fun it => if it.name = str "A" then none
      else some (.jobj [(str "items", .jarr [.jobj [(str "name", .jstr (str "B2"))]])]))
    [⟨str "A", [], [], str "LOW", [], []⟩, ⟨str "B", [], [], str "HIGH", [], []⟩]
    (fun it => if it.name = str "A" then none
      else some ⟨str "B2", [], [], str "LOW", [], []⟩)
    (by
      intro it hit
      fin_cases hit <;> decide)).1
  simpa using h

/-! ## Claims C8 and C9: item parsing invariants -/

/-- Generic parsed-item invariant, lifted over the parsing loop: if every
successfully parsed kept item satisfies `P`, so does every member of the
loop's output. -/
theorem parseItemsLoop_all (P : Item → Prop)
    (hP : ∀ v it, parseItem v = .ok (some it) → P it) :
    ∀ (xs : List JVal) (out : List Item), parseItemsLoop xs = .ok out →
      ∀ it ∈ out, P it := by
  intro xs
  induction xs with
  | nil =>
    intro out h it hit
    simp only [parseItemsLoop] at h
    cases h
    cases hit
  | cons x t ih =>
    intro out h it hit
    unfold parseItemsLoop at h
    rcases hx : parseItem x with e | r <;> rw [hx] at h
    · simp [Bind.bind, Except.bind] at h
    · rcases ht : parseItemsLoop t with e2 | rest <;> rw [ht] at h
      · simp [Bind.bind, Except.bind] at h
      · cases r with
        | none =>
          simp only [Bind.bind, Except.bind, pure, Except.pure, Except.ok.injEq] at h
          subst h
          exact ih rest ht it hit
        | some it0 =>
          simp only [Bind.bind, Except.bind, pure, Except.pure, Except.ok.injEq] at h
          subst h
          cases hit with
          | head => exact hP x _ hx
          | tail _ hit2 => exact ih rest ht it hit2

/-- Generic parsed-item invariant lifted over `safe_parse_items`. -/
theorem safe_parse_items_all (P : Item → Prop)
    (hP : ∀ v it, parseItem v = .ok (some it) → P it) :
    ∀ (parsed : Option JVal) (out : List Item), safe_parse_items parsed = .ok out →
      ∀ it ∈ out, P it := by
  intro parsed out h it hit
  match parsed with
  | none =>
    simp only [safe_parse_items] at h
    cases h
    cases hit
  | some (.jobj fs) =>
    simp only [safe_parse_items] at h
    split at h
    · exact parseItemsLoop_all P hP _ out h it hit
    · cases h
      cases hit
  | some .jnull | some (.jbool _) | some (.jnum _) | some (.jstr _) | some (.jarr _) =>
    simp only [safe_parse_items] at h
    cases h

/-- Every item kept by the per-item parser has confidence HIGH, MED or
LOW: an in-range extracted confidence is kept, everything else is
replaced by LOW. -/
theorem parseItem_confidence (v : JVal) (it : Item)
    (h : parseItem v = .ok (some it)) :
    it.confidence = str "HIGH" ∨ it.confidence = str "MED" ∨ it.confidence = str "LOW" := by
  match v with
  | .jnull | .jbool _ | .jnum _ | .jstr _ | .jarr _ =>
    simp only [parseItem] at h
    cases h
  | .jobj fs =>
    simp only [parseItem] at h
    rcases h1 : getStrip fs (str "name") with e | nm <;> rw [h1] at h <;>
      [simp [Bind.bind, Except.bind] at h; skip]
    rcases h2 : getStrip fs (str "also_known_as") with e | aka <;> rw [h2] at h <;>
      [simp [Bind.bind, Except.bind] at h; skip]
    rcases h3 : getStrip fs (str "official_website") with e | web <;> rw [h3] at h <;>
      [simp [Bind.bind, Except.bind] at h; skip]
    rcases h4 : getStrip fs (str "confidence") with e | cf <;> rw [h4] at h <;>
      [simp [Bind.bind, Except.bind] at h; skip]
    rcases h5 : getStrip fs (str "evidence") with e | evd <;> rw [h5] at h <;>
      [simp [Bind.bind, Except.bind] at h; skip]
    rcases h6 : getStrip fs (str "comment") with e | cm <;> rw [h6] at h <;>
      [simp [Bind.bind, Except.bind] at h; skip]
    simp only [Bind.bind, Except.bind] at h
    split at h
    · simp only [pure, Except.pure, Except.ok.injEq] at h
      cases h
    · split at h
      · rename_i hcf
        simp only [pure, Except.pure, Except.ok.injEq, Option.some.injEq] at h
        subst h
        exact hcf
      · simp only [pure, Except.pure, Except.ok.injEq, Option.some.injEq] at h
        subst h
        right; right; rfl

/-- Every item kept by the per-item parser has a non-empty name. -/
theorem parseItem_name_nonempty (v : JVal) (it : Item)
    (h : parseItem v = .ok (some it)) : it.name ≠ [] := by
  match v with
  | .jnull | .jbool _ | .jnum _ | .jstr _ | .jarr _ =>
    simp only [parseItem] at h
    cases h
  | .jobj fs =>
    simp only [parseItem] at h
    rcases h1 : getStrip fs (str "name") with e | nm <;> rw [h1] at h <;>
      [simp [Bind.bind, Except.bind] at h; skip]
    rcases h2 : getStrip fs (str "also_known_as") with e | aka <;> rw [h2] at h <;>
      [simp [Bind.bind, Except.bind] at h; skip]
    rcases h3 : getStrip fs (str "official_website") with e | web <;> rw [h3] at h <;>
      [simp [Bind.bind, Except.bind] at h; skip]
    rcases h4 : getStrip fs (str "confidence") with e | cf <;> rw [h4] at h <;>
      [simp [Bind.bind, Except.bind] at h; skip]
    rcases h5 : getStrip fs (str "evidence") with e | evd <;> rw [h5] at h <;>
      [simp [Bind.bind, Except.bind] at h; skip]
    rcases h6 : getStrip fs (str "comment") with e | cm <;> rw [h6] at h <;>
      [simp [Bind.bind, Except.bind] at h; skip]
    simp only [Bind.bind, Except.bind] at h
    split at h
    · simp only [pure, Except.pure, Except.ok.injEq] at h
      cases h
    · rename_i hnm
      split at h <;>
        (simp only [pure, Except.pure, Except.ok.injEq, Option.some.injEq] at h
         subst h
         exact hnm)

/-- C8: an item whose six fields extract cleanly, whose name is
non-empty, and whose confidence value is missing or outside
{HIGH, MED, LOW} (the extraction yields the empty string for a missing,
null or falsy field) is kept with its confidence re-labelled LOW — never
dropped for that reason — and every item in any successful parse output
carries one of the three enum values. -/
theorem c8_confidence_coercion (fs : List (List Char × JVal))
    (nm aka web cf evd cm : List Char)
    (hn : getStrip fs (str "name") = .ok nm) (hnm : nm ≠ [])
    (ha : getStrip fs (str "also_known_as") = .ok aka)
    (hw : getStrip fs (str "official_website") = .ok web)
    (hc : getStrip fs (str "confidence") = .ok cf)
    (hcf : cf ≠ str "HIGH" ∧ cf ≠ str "MED" ∧ cf ≠ str "LOW")
    (he : getStrip fs (str "evidence") = .ok evd)
    (hm : getStrip fs (str "comment") = .ok cm) :
    parseItem (.jobj fs) = .ok (some ⟨nm, aka, web, str "LOW", evd, cm⟩) ∧
    (∀ (parsed : Option JVal) (out : List Item), safe_parse_items parsed = .ok out →
      ∀ it ∈ out, it.confidence = str "HIGH" ∨ it.confidence = str "MED" ∨
        it.confidence = str "LOW") := by
  constructor
  · simp only [parseItem, hn, ha, hw, hc, he, hm, Bind.bind, Except.bind]
    rw [if_neg hnm]
    rw [if_neg (by
      rintro (h | h | h)
      · exact hcf.1 h
      · exact hcf.2.1 h
      · exact hcf.2.2 h)]
    rfl
  · exact safe_parse_items_all _ parseItem_confidence

/-- Witness for C8: a well-formed item with name `Ofgem` and the
out-of-range confidence string `high` is kept with confidence LOW. -/
theorem c8_confidence_coercion_witness :
    parseItem (.jobj [(str "name", .jstr (str "Ofgem")),
        (str "confidence", .jstr (str "high"))]) =
      .ok (some ⟨str "Ofgem", [], [], str "LOW", [], []⟩) :=
  (c8_confidence_coercion
    [(str "name", .jstr (str "Ofgem")), (str "confidence", .jstr (str "high"))]
    (str "Ofgem") [] [] (str "high") [] []
    (by decide) (by decide) (by decide) (by decide) (by decide)
    ⟨by decide, by decide, by decide⟩ (by decide) (by decide)).1

/-- C9: an item whose six fields extract cleanly but whose name extracts
to the empty string (the name is missing, empty or whitespace-only) is
skipped by the parser regardless of its other fields, and every item in
any successful parse output has a non-empty name. -/
theorem c9_empty_name_rejected (fs : List (List Char × JVal))
    (aka web cf evd cm : List Char)
    (hn : getStrip fs (str "name") = .ok [])
    (ha : getStrip fs (str "also_known_as") = .ok aka)
    (hw : getStrip fs (str "official_website") = .ok web)
    (hc : getStrip fs (str "confidence") = .ok cf)
    (he : getStrip fs (str "evidence") = .ok evd)
    (hm : getStrip fs (str "comment") = .ok cm) :
    parseItem (.jobj fs) = .ok none ∧
    (∀ (parsed : Option JVal) (out : List Item), safe_parse_items parsed = .ok out →
      ∀ it ∈ out, it.name ≠ []) := by
  constructor
  · simp only [parseItem, hn, ha, hw, hc, he, hm, Bind.bind, Except.bind]
    simp [pure, Except.pure]
  · exact safe_parse_items_all _ parseItem_name_nonempty

/-- Witness for C9: an item with whitespace-only name and otherwise valid
fields is skipped. -/
theorem c9_empty_name_rejected_witness :
    parseItem (.jobj [(str "name", .jstr (str "   ")),
        (str "confidence", .jstr (str "HIGH")),
        (str "official_website", .jstr (str "https://x.example"))]) = .ok none :=
  (c9_empty_name_rejected
    [(str "name", .jstr (str "   ")), (str "confidence", .jstr (str "HIGH")),
     (str "official_website", .jstr (str "https://x.example"))]
    [] (str "https://x.example") (str "HIGH") [] []
    (by decide) (by decide) (by decide) (by decide) (by decide) (by decide)).1

/-! ## Claim C1: normalization idempotence -/

/-- C1, counterexample: `normalize_name` is not idempotent.  In
`a ! b` the whitespace around `!` is collapsed *before* the `!` is
deleted, so one pass leaves the double space of `a  b`, which a second
pass collapses to `a b`. -/
theorem c1_counterexample :
    normalize_name (normalize_name (str "a ! b")) ≠ normalize_name (str "a ! b") := by
  decide

/-- Code points 65-90 shifted by 32 are valid scalar values. -/
theorem charOfNat_toNat (n : Nat) (h1 : 65 ≤ n) (h2 : n ≤ 90) :
    (Char.ofNat (n + 32)).toNat = n + 32 := by
  interval_cases n <;> decide

/-- ASCII lower-casing is idempotent. -/
theorem pyLower_idem (c : Char) : pyLower (pyLower c) = pyLower c := by
  by_cases h : 65 ≤ c.toNat ∧ c.toNat ≤ 90
  · have h1 : pyLower c = Char.ofNat (c.toNat + 32) := by
      simp only [pyLower, if_pos h]
    rw [h1]
    have hv : (Char.ofNat (c.toNat + 32)).toNat = c.toNat + 32 :=
      charOfNat_toNat c.toNat h.1 h.2
    simp only [pyLower, hv]
    rw [if_neg (by omega)]
  · have h1 : pyLower c = c := by simp only [pyLower, if_neg h]
    rw [h1, h1]

/-- Every character produced by lower-casing followed by NFKD
decomposition is itself a fixed point of both operations. -/
theorem nfkd_pyLower_img (e c : Char) (hc : c ∈ nfkdChar (pyLower e)) :
    pyLower c = c ∧ nfkdChar c = [c] := by
  unfold nfkdChar at hc
  split_ifs at hc with h1 h2 h3 h4 h5 h6
  · simp only [List.mem_cons, List.not_mem_nil, or_false] at hc
    rcases hc with rfl | rfl <;> exact ⟨by decide, by decide⟩
  · simp only [List.mem_cons, List.not_mem_nil, or_false] at hc
    rcases hc with rfl | rfl <;> exact ⟨by decide, by decide⟩
  · simp only [List.mem_cons, List.not_mem_nil, or_false] at hc
    rcases hc with rfl | rfl <;> exact ⟨by decide, by decide⟩
  · simp only [List.mem_cons, List.not_mem_nil, or_false] at hc
    rcases hc with rfl | rfl <;> exact ⟨by decide, by decide⟩
  · simp only [List.mem_cons, List.not_mem_nil, or_false] at hc
    rcases hc with rfl | rfl <;> exact ⟨by decide, by decide⟩
  · simp only [List.mem_cons, List.not_mem_nil, or_false] at hc
    rcases hc with rfl | rfl <;> exact ⟨by decide, by decide⟩
  · simp only [List.mem_cons, List.not_mem_nil, or_false] at hc
    subst hc
    refine ⟨pyLower_idem e, ?_⟩
    unfold nfkdChar
    rw [if_neg h1, if_neg h2, if_neg h3, if_neg h4, if_neg h5, if_neg h6]

/-- `dropWhile` either empties the list or stops at a failing element. -/
theorem dropWhile_head_not (p : Char → Bool) :
    ∀ l : List Char, l.dropWhile p = [] ∨
      ∃ c t, l.dropWhile p = c :: t ∧ p c = false
  | [] => .inl rfl
  | c :: t => by
    by_cases h : p c = true
    · rw [List.dropWhile_cons_of_pos h]
      exact dropWhile_head_not p t
    · rw [List.dropWhile_cons_of_neg h]
      exact .inr ⟨c, t, rfl, by simpa using h⟩

/-- `dropTrailingWs` keeps the head of a non-empty list, when it keeps
anything at all. -/
theorem dtw_shape (c : Char) (t : List Char) :
    dropTrailingWs (c :: t) = [] ∨ ∃ t', dropTrailingWs (c :: t) = c :: t' := by
  simp only [dropTrailingWs]
  cases h : dropTrailingWs t with
  | nil =>
    by_cases hsp : isSpaceCh c = true
    · rw [if_pos hsp]
      exact .inl rfl
    · rw [if_neg hsp]
      exact .inr ⟨[], rfl⟩
  | cons a b =>
    exact .inr ⟨a :: b, rfl⟩

/-- Unfolding equation for `dropTrailingWs` on a cons cell. -/
theorem dtw_cons_eq (c : Char) (t : List Char) :
    dropTrailingWs (c :: t) =
      match dropTrailingWs t with
      | [] => if isSpaceCh c then [] else [c]
      | t' => c :: t' := rfl

/-- Dropping trailing whitespace is idempotent. -/
theorem dtw_idem : ∀ l : List Char, dropTrailingWs (dropTrailingWs l) = dropTrailingWs l
  | [] => rfl
  | c :: t => by
    cases h : dropTrailingWs t with
    | nil =>
      rw [dtw_cons_eq c t, h]
      by_cases hsp : isSpaceCh c = true
      · rw [if_pos hsp]
        rfl
      · rw [if_neg hsp]
        show dropTrailingWs [c] = [c]
        rw [dtw_cons_eq]
        simp [dropTrailingWs, hsp]
    | cons a b =>
      have hin : dropTrailingWs (a :: b) = a :: b := by
        rw [← h, dtw_idem t, h]
      rw [dtw_cons_eq c t, h]
      show dropTrailingWs (c :: a :: b) = c :: a :: b
      rw [dtw_cons_eq c (a :: b), hin]

/-- `dropTrailingWs` only removes elements. -/
theorem dtw_subset : ∀ l : List Char, dropTrailingWs l ⊆ l
  | [] => fun _ h => h
  | c :: t => by
    simp only [dropTrailingWs]
    cases h : dropTrailingWs t with
    | nil =>
      by_cases hsp : isSpaceCh c = true
      · rw [if_pos hsp]
        intro a ha
        cases ha
      · rw [if_neg hsp]
        intro a ha
        rcases List.mem_cons.mp ha with rfl | ha
        · exact List.mem_cons_self _ _
        · cases ha
    | cons a b =>
      intro d hd
      rcases List.mem_cons.mp hd with rfl | hd
      · exact List.mem_cons_self _ _
      · exact List.mem_cons_of_mem _ (dtw_subset t (h ▸ hd))

/-- `stripCh` only removes elements. -/
theorem stripCh_subset (l : List Char) : stripCh l ⊆ l := fun c hc =>
  (List.dropWhile_sublist isSpaceCh).subset (dtw_subset _ hc)

/-- `stripCh` is idempotent. -/
theorem stripCh_idem (l : List Char) : stripCh (stripCh l) = stripCh l := by
  unfold stripCh
  have h1 : (dropTrailingWs (l.dropWhile isSpaceCh)).dropWhile isSpaceCh
      = dropTrailingWs (l.dropWhile isSpaceCh) := by
    rcases dropWhile_head_not isSpaceCh l with h | ⟨c, t, h, hc⟩
    · rw [h]
      rfl
    · rw [h]
      rcases dtw_shape c t with h2 | ⟨t', h2⟩
      · rw [h2]
        rfl
      · rw [h2]
        exact List.dropWhile_cons_of_neg (by simp [hc])
  rw [h1, dtw_idem]

/-- Characters of a collapsed string come from the input or are the
inserted single space. -/
theorem collapseGo_mem (c : Char) : ∀ (b : Bool) (l : List Char),
    c ∈ collapseGo b l → c ∈ l ∨ c = ' '
  | _, [] => fun h => absurd h (by simp [collapseGo])
  | b, d :: t => fun h => by
    have key : c ∈ collapseGo true t → c ∈ d :: t ∨ c = ' ' := fun h2 =>
      (collapseGo_mem c true t h2).elim (fun h3 => .inl (List.mem_cons_of_mem _ h3)) .inr
    by_cases hd : isSpaceCh d = true
    · cases b with
      | true =>
        simp only [collapseGo, if_pos hd, if_pos rfl] at h
        exact key h
      | false =>
        simp only [collapseGo, if_pos hd] at h
        rcases List.mem_cons.mp h with rfl | h2
        · exact .inr rfl
        · exact key h2
    · simp only [collapseGo, if_neg hd] at h
      rcases List.mem_cons.mp h with rfl | h2
      · exact .inl (List.mem_cons_self _ _)
      · exact (collapseGo_mem c false t h2).elim
          (fun h3 => .inl (List.mem_cons_of_mem _ h3)) .inr

/-- After a space has just been emitted, the collapsed remainder never
starts with whitespace. -/
theorem collapseGo_true_head : ∀ l : List Char,
    (!((collapseGo true l).head?.elim false isSpaceCh)) = true
  | [] => rfl
  | d :: t => by
    by_cases hd : isSpaceCh d = true
    · simp only [collapseGo, if_pos hd, if_pos rfl]
      exact collapseGo_true_head t
    · simp only [collapseGo, if_neg hd, Option.elim, List.head?]
      simp [hd]

/-- The output of whitespace collapsing is whitespace-collapsed. -/
theorem okB_collapseGo : ∀ (b : Bool) (l : List Char), okB (collapseGo b l) = true
  | _, [] => rfl
  | b, d :: t => by
    by_cases hd : isSpaceCh d = true
    · cases b with
      | true =>
        simp only [collapseGo, if_pos hd, if_pos rfl]
        exact okB_collapseGo true t
      | false =>
        simp only [collapseGo, if_pos hd]
        show (pairOk ' ' (collapseGo true t) && okB (collapseGo true t)) = true
        rw [Bool.and_eq_true]
        refine ⟨?_, okB_collapseGo true t⟩
        unfold pairOk
        rw [collapseGo_true_head t]
        simp
    · simp only [collapseGo, if_neg hd]
      show (pairOk d (collapseGo false t) && okB (collapseGo false t)) = true
      rw [Bool.and_eq_true]
      refine ⟨?_, okB_collapseGo false t⟩
      unfold pairOk
      simp [hd]

/-- A whitespace-collapsed string is a fixed point of collapsing; with
the just-emitted-space flag set this additionally needs a non-space
head. -/
theorem collapseGo_eq_self : ∀ l : List Char, okB l = true →
    collapseGo false l = l ∧
      ((!(l.head?.elim false isSpaceCh)) = true → collapseGo true l = l)
  | [], _ => ⟨rfl, fun _ => rfl⟩
  | c :: t, hok => by
    rw [show okB (c :: t) = (pairOk c t && okB t) from rfl, Bool.and_eq_true] at hok
    obtain ⟨hp, ht⟩ := hok
    have ih := collapseGo_eq_self t ht
    by_cases hsp : isSpaceCh c = true
    · have hp2 : (c == ' ' && !(t.head?.elim false isSpaceCh)) = true := by
        unfold pairOk at hp
        rwa [hsp, Bool.not_true, Bool.false_or] at hp
      rw [Bool.and_eq_true] at hp2
      have hc : c = ' ' := by
        have := hp2.1
        simpa using this
      constructor
      · simp only [collapseGo, if_pos hsp]
        rw [if_neg (by decide), ih.2 hp2.2, hc]
      · intro hh
        simp only [List.head?, Option.elim] at hh
        rw [hsp] at hh
        cases hh
    · constructor
      · simp only [collapseGo, if_neg hsp]
        rw [ih.1]
      · intro _
        simp only [collapseGo, if_neg hsp]
        rw [ih.1]

/-- Dropping leading whitespace preserves collapsedness. -/
theorem okB_dropWhile : ∀ l : List Char, okB l = true →
    okB (l.dropWhile isSpaceCh) = true
  | [], h => h
  | c :: t, hok => by
    rw [show okB (c :: t) = (pairOk c t && okB t) from rfl, Bool.and_eq_true] at hok
    by_cases hsp : isSpaceCh c = true
    · rw [List.dropWhile_cons_of_pos hsp]
      exact okB_dropWhile t hok.2
    · rw [List.dropWhile_cons_of_neg (by simp [hsp])]
      rw [show okB (c :: t) = (pairOk c t && okB t) from rfl, Bool.and_eq_true]
      exact ⟨hok.1, hok.2⟩

/-- Dropping trailing whitespace preserves collapsedness. -/
theorem okB_dtw : ∀ l : List Char, okB l = true → okB (dropTrailingWs l) = true
  | [], h => h
  | c :: t, hok => by
    rw [show okB (c :: t) = (pairOk c t && okB t) from rfl, Bool.and_eq_true] at hok
    obtain ⟨hp, ht⟩ := hok
    have ih := okB_dtw t ht
    cases h : dropTrailingWs t with
    | nil =>
      rw [dtw_cons_eq c t, h]
      by_cases hsp : isSpaceCh c = true
      · rw [if_pos hsp]
        rfl
      · rw [if_neg hsp]
        show (pairOk c [] && okB []) = true
        rw [Bool.and_eq_true]
        refine ⟨?_, rfl⟩
        unfold pairOk
        simp [hsp]
    | cons a b =>
      rw [dtw_cons_eq c t, h]
      show (pairOk c (a :: b) && okB (a :: b)) = true
      rw [Bool.and_eq_true]
      refine ⟨?_, h ▸ ih⟩
      cases t with
      | nil =>
        cases h
      | cons t0 t1 =>
        have ha : a = t0 := by
          rcases dtw_shape t0 t1 with h2 | ⟨t', h2⟩
          · rw [h2] at h
            cases h
          · rw [h2] at h
            exact (List.cons.injEq _ _ _ _ ▸ h).1.symm
        unfold pairOk at hp ⊢
        simp only [List.head?, Option.elim] at hp ⊢
        rw [ha]
        exact hp

/-- A map whose function fixes every member is the identity. -/
theorem map_eq_self_of (f : Char → Char) (l : List Char)
    (h : ∀ c ∈ l, f c = c) : l.map f = l := by
  rw [List.map_congr_left (g := id) (fun a ha => h a ha), List.map_id]

/-- A flatMap sending every member to its singleton is the identity. -/
theorem flatMap_eq_self_of (g : Char → List Char) :
    ∀ l : List Char, (∀ c ∈ l, g c = [c]) → l.flatMap g = l
  | [], _ => rfl
  | c :: t, h => by
    rw [List.flatMap_cons, h c (List.mem_cons_self _ _),
      flatMap_eq_self_of g t (fun d hd => h d (List.mem_cons_of_mem _ hd))]
    rfl

/-- Every character of a normalized string is kept, lower-case-fixed,
NFKD-fixed and non-combining. -/
theorem normalize_name_chars (x : List Char) :
    ∀ c ∈ normalize_name x, keepCh c = true ∧ pyLower c = c ∧ nfkdChar c = [c] ∧
      isCombining c = false := by
  intro c hc
  simp only [normalize_name] at hc
  have h6 := stripCh_subset _ hc
  have hkeep : keepCh c = true := (List.mem_filter.mp h6).2
  have h5 := (List.mem_filter.mp h6).1
  rcases collapseGo_mem c false _ h5 with h4 | rfl
  · have hcomb : (!isCombining c) = true := (List.mem_filter.mp h4).2
    have h3 := (List.mem_filter.mp h4).1
    obtain ⟨d, hd, hcd⟩ := List.mem_flatMap.mp h3
    obtain ⟨e, _, rfl⟩ := List.mem_map.mp hd
    obtain ⟨hl, hn⟩ := nfkd_pyLower_img e c hcd
    exact ⟨hkeep, hl, hn, by simpa using hcomb⟩
  · exact ⟨by decide, by decide, by decide, by decide⟩

/-- The normalizer's output is already stripped. -/
theorem stripCh_normalize (x : List Char) :
    stripCh (normalize_name x) = normalize_name x := by
  simp only [normalize_name]
  exact stripCh_idem _

/-- On a stripped string of kept, lower-case-fixed, NFKD-fixed,
non-combining characters, `normalize_name` reduces to whitespace
collapsing followed by stripping. -/
theorem normalize_name_canonical (l : List Char)
    (hstrip : stripCh l = l)
    (hchars : ∀ c ∈ l, keepCh c = true ∧ pyLower c = c ∧ nfkdChar c = [c] ∧
      isCombining c = false) :
    normalize_name l = stripCh (collapseWs l) := by
  have h2 : l.map pyLower = l := map_eq_self_of _ _ (fun c hc => (hchars c hc).2.1)
  have h3 : l.flatMap nfkdChar = l :=
    flatMap_eq_self_of _ l (fun c hc => (hchars c hc).2.2.1)
  have h4 : l.filter (fun c => !isCombining c) = l :=
    List.filter_eq_self.mpr (fun c hc => by simp [(hchars c hc).2.2.2])
  have h6 : (collapseWs l).filter keepCh = collapseWs l := by
    refine List.filter_eq_self.mpr (fun c hc => ?_)
    rcases collapseGo_mem c false l hc with h | rfl
    · exact (hchars c h).1
    · decide
  simp only [normalize_name, hstrip, h2, h3, h4, h6]

/-- C1, amended: `normalize_name` is not idempotent — deleting a
disallowed character that separated two whitespace runs can leave a
doubled space, because whitespace collapsing runs before character
deletion — but a second application reaches a fixed point: for every
input `x`, `normalize_name (normalize_name x)` is invariant under
further normalization. -/
theorem c1_normalize_second_pass_fixed (x : List Char) :
    normalize_name (normalize_name (normalize_name x)) =
      normalize_name (normalize_name x) := by
  set y := normalize_name x with hy
  have hyc := normalize_name_chars x
  have hystrip : stripCh y = y := stripCh_normalize x
  have h1 : normalize_name y = stripCh (collapseWs y) :=
    normalize_name_canonical y hystrip hyc
  set z := stripCh (collapseWs y) with hz
  have hzchars : ∀ c ∈ z, keepCh c = true ∧ pyLower c = c ∧ nfkdChar c = [c] ∧
      isCombining c = false := by
    intro c hc
    have hcc := stripCh_subset _ hc
    rcases collapseGo_mem c false y hcc with h | rfl
    · exact hyc c h
    · exact ⟨by decide, by decide, by decide, by decide⟩
  have hzstrip : stripCh z = z := stripCh_idem _
  have h2 : normalize_name z = stripCh (collapseWs z) :=
    normalize_name_canonical z hzstrip hzchars
  have hokz : okB z = true := okB_dtw _ (okB_dropWhile _ (okB_collapseGo false y))
  have hcz : collapseWs z = z := (collapseGo_eq_self z hokz).1
  rw [h1, h2, hcz, hzstrip]
